import Mathlib

/-!
Verification of the GitBoss repository discovery and reconciliation subsystem.

The development shallowly embeds three pieces of the code base:

* the repository-set reconciler, i.e. the merge loop of
  `_collect_repositories` (`src/main.py`, `src/gitboss/main.py`) together with
  the manual-add operation of `MainWindow._on_add_repo`
  (`src/ui/main_window.py`);
* the working-tree status aggregator `GitManager`
  (`src/gitboss/core/git_manager.py`), over a model of the external Git
  capability;
* the filesystem repository locator `scan_for_repositories`
  (`src/core/repository_scanner.py`), over a rose-tree model of a directory
  hierarchy.

Paths in the reconciler are abstracted to an arbitrary type `α` with decidable
equality; `Path.resolve` is abstracted to a canonicalization function `canon`
(total where every entry resolves, `Option`-valued where resolution failure
matters).
-/

namespace GitBoss

/-- First-occurrence deduplication of a list: keep each element's first
occurrence, drop every later duplicate.  This is the specification-side
description of the order-preserving dedup performed by the merge loop. -/
def firstDedup {α : Type} [DecidableEq α] : List α → List α
  | [] => []
  | x :: xs => x :: (firstDedup xs).filter (fun y => decide (y ≠ x))

/-- Embedding of the merge loop of `_collect_repositories`
(`src/main.py` lines 36-43):

```
seen: set[Path] = set()
merged: list[Path] = []
for repo in stored + scanned:
    repo = repo.resolve()
    if repo not in seen:
        merged.append(repo)
        seen.add(repo)
```

`canon` models `Path.resolve` (total: every entry resolves; `mergeLoopE` below
is the failure-aware embedding).  The accumulator `acc` plays the role of both
`merged` and `seen`, which agree on membership at every loop iteration. -/
def mergeLoop {α : Type} [DecidableEq α] (canon : α → α) : List α → List α → List α
  | [], acc => acc
  | r :: rs, acc =>
    if canon r ∈ acc then mergeLoop canon rs acc
    else mergeLoop canon rs (acc ++ [canon r])

/-- The same loop with `Path.resolve` modelled as partial
(`canon : α → Option α`, `none` = resolution raises, e.g. a path string with
an embedded NUL byte makes `os.path.realpath` raise `ValueError`).  The source
loop applies `repo.resolve()` with no exception handler, so a failing entry
propagates the exception out of `_collect_repositories`. -/
def mergeLoopE {α : Type} [DecidableEq α] (canon : α → Option α) :
    List α → List α → Except Unit (List α)
  | [], acc => .ok acc
  | r :: rs, acc =>
    match canon r with
    | none => .error ()
    | some r' =>
      if r' ∈ acc then mergeLoopE canon rs acc
      else mergeLoopE canon rs (acc ++ [r'])

/-- The slice of `AppConfig` (`src/data/config_manager.py`) that
`_collect_repositories` reads: `base_directory` is a plain string whose empty
default means "not configured" (`if config.base_directory:` tests Python
truthiness), and `preferences["repositories"]` is the persisted repository
list, already converted to path values (`[Path(p) for p in ...]`). -/
structure AppConfig (α : Type) where
  baseDirectory : String
  repositories : List α

/-- Embedding of `_collect_repositories` (`src/main.py` lines 31-44).  The
scanner's output is abstracted as the `scanned` argument (it is produced by
`scan_for_repositories`, embedded separately below).  When a base directory is
configured the stored and scanned lists are merged; otherwise the stored list
is returned as-is, with no resolution and no deduplication. -/
def collectRepositories {α : Type} [DecidableEq α] (canon : α → α)
    (scanned : List α) (cfg : AppConfig α) : List α :=
  if cfg.baseDirectory ≠ "" then mergeLoop canon (cfg.repositories ++ scanned) []
  else cfg.repositories

/-- Embedding of the list update of `MainWindow._on_add_repo`
(`src/ui/main_window.py` lines 164-174): append the chosen path unless that
exact path value is already present (`if path not in self.repos`); comparison
is raw `Path` equality, not canonical-path equality. -/
def addRepo {α : Type} [DecidableEq α] (repos : List α) (p : α) : List α :=
  if p ∈ repos then repos else repos ++ [p]

/-- A concrete partial resolver: models `Path.resolve` on a filesystem where
paths are already canonical, except that one malformed entry (13, standing for
e.g. a path string with an embedded NUL byte) cannot be resolved —
`os.path.realpath` raises `ValueError` on it. -/
def canonDrop (n : Nat) : Option Nat :=
  if n = 13 then none else some n

/-- A concrete total resolver with one alias: raw path 2 is an alternate
spelling (e.g. a symlink) of canonical path 1, and every other path is
already canonical.  The raw-distinct values 1 and 2 resolve to the same
canonical path. -/
def canonAlias (n : Nat) : Nat :=
  if n = 2 then 1 else n

/-! ## Working-tree status aggregator (`GitManager`) -/

/-- The error classes observable from `GitManager`
(`src/gitboss/core/git_manager.py`): `valueError` is the `ValueError` that
`load` raises on an invalid repository (the spec's `NotARepository`);
`typeError` is the `TypeError` that the Git capability's current-branch lookup
(`repo.active_branch`) raises on a detached/branch-less HEAD and that
`current_branch` does not catch. -/
inductive GErr where
  | valueError
  | typeError
deriving DecidableEq, Repr

/-- Modelled from the spec: the Git capability collaborator of §6, which is
external to this repository (the `git.Repo` binding).  It offers, for a fixed
path: a validity check (`valid`), the dirty-state query including untracked
files (`dirty`), branch enumeration (`branches`), current-branch lookup
(`activeBranch`, `none` when the capability has no current branch to report,
e.g. detached HEAD, in which case the lookup raises), and the line-oriented
changed-paths query (`statusLines`, `.error` when the underlying command
fails with `GitCommandError`). -/
structure GitCapability where
  valid : Bool
  dirty : Bool
  branches : List String
  activeBranch : Option String
  statusLines : Except Unit (List String)

/-- State of a `GitManager` handle: the path it was constructed on and the
`repo` field, `None` until a successful `load` assigns it
(`self.repo: Optional[Repo] = None`). -/
structure GitManager where
  repoPath : String
  repo : Option Unit

/-- `GitManager.__init__`: the handle starts with `repo = None`. -/
def newManager (p : String) : GitManager :=
  { repoPath := p, repo := none }

/-- `GitManager.load`: `self.repo = Repo(self.repo_path)`, converting
`InvalidGitRepositoryError` into `ValueError`.  On failure the exception is
raised before the assignment, so no state with `repo` set is ever produced. -/
def GitManager.load (cap : GitCapability) (m : GitManager) :
    Except GErr GitManager :=
  if cap.valid then .ok { m with repo := some () } else .error .valueError

/-- The `if not self.repo: self.load()` preamble shared by every query. -/
def GitManager.ensure (cap : GitCapability) (m : GitManager) :
    Except GErr GitManager :=
  match m.repo with
  | some _ => .ok m
  | none => GitManager.load cap m

/-- `GitManager.is_dirty`: load if needed, then
`self.repo.is_dirty(untracked_files=True)`. -/
def GitManager.is_dirty (cap : GitCapability) (m : GitManager) :
    Except GErr (GitManager × Bool) := do
  let m' ← GitManager.ensure cap m
  pure (m', cap.dirty)

/-- `GitManager.list_branches`: load if needed, then the branch names as
reported by the capability. -/
def GitManager.list_branches (cap : GitCapability) (m : GitManager) :
    Except GErr (GitManager × List String) := do
  let m' ← GitManager.ensure cap m
  pure (m', cap.branches)

/-- `GitManager.current_branch`: load if needed, then
`self.repo.active_branch.name`; when the capability has no active branch the
lookup raises `TypeError`, which this method does not catch. -/
def GitManager.current_branch (cap : GitCapability) (m : GitManager) :
    Except GErr (GitManager × String) := do
  let m' ← GitManager.ensure cap m
  match cap.activeBranch with
  | some b => pure (m', b)
  | none => Except.error GErr.typeError

/-- `GitManager.list_status`: load if needed, then the porcelain status query
with `GitCommandError` caught and degraded to an empty list.  Note the load
happens before the `try` block, so a load failure is not caught here. -/
def GitManager.list_status (cap : GitCapability) (m : GitManager) :
    Except GErr (GitManager × List String) := do
  let m' ← GitManager.ensure cap m
  match cap.statusLines with
  | .ok ls => pure (m', ls)
  | .error _ => pure (m', [])

/-- A concrete invalid capability: the path does not resolve to a working
tree. -/
def capInvalid : GitCapability :=
  { valid := false, dirty := false, branches := [], activeBranch := none,
    statusLines := .ok [] }

/-- A concrete capability for a valid repository whose HEAD is detached: the
handle opens, but the current-branch lookup has nothing to report. -/
def capDetached : GitCapability :=
  { valid := true, dirty := false, branches := ["main"], activeBranch := none,
    statusLines := .ok [] }

/-! ## Filesystem repository locator (`scan_for_repositories`)

The directory hierarchy under the (existing, already resolved) base directory
is modelled as a finite rose tree of directories.  Plain files are omitted:
the scanner's `child.is_dir()` check filters them out before anything else
happens to them.  Each node carries:

* `name` — the directory's final path component;
* `hasGit` — whether the directory directly contains a `.git` subdirectory;
* `readable` — whether the process may list/traverse the directory; on an
  unreadable directory `iterdir()` raises `PermissionError`, and the
  `(path / ".git").is_dir()` probe inside `is_git_repository` returns `False`
  (pathlib swallows the `OSError` from `stat`);
* `isLink` — whether the directory entry is a symbolic link (with its
  target's contents inlined as `children`; aliasing/cycles are outside this
  tree model).  The scanner never queries this attribute: `child.is_dir()`
  follows links.

A repository found at address `a` (the list of names from the base, `[]` for
the base itself) corresponds to the absolute path the source appends to
`repositories`. -/

inductive Dir : Type where
  | node (name : String) (hasGit readable isLink : Bool) (children : List Dir)

def Dir.name : Dir → String
  | .node n _ _ _ _ => n

def Dir.hasGit : Dir → Bool
  | .node _ g _ _ _ => g

def Dir.readable : Dir → Bool
  | .node _ _ r _ _ => r

def Dir.isLink : Dir → Bool
  | .node _ _ _ l _ => l

def Dir.children : Dir → List Dir
  | .node _ _ _ _ cs => cs

/-- Replace the symlink flag on the root node, leaving everything else
unchanged. -/
def Dir.withLink : Dir → Bool → Dir
  | .node n g r _ cs, b => .node n g r b cs

/-- `name.startswith(".")`: the hidden-file marker test applied to child
directory names. -/
def hiddenName (s : String) : Bool :=
  match s.data with
  | [] => false
  | c :: _ => c = '.'

/-- `is_git_repository(path)`: `(path / ".git").is_dir()`.  True only when
the directory is traversable and directly contains a `.git` directory. -/
def isRepo (d : Dir) : Bool :=
  d.readable && d.hasGit

mutual

/-- Embedding of `_scan(directory, depth)`
(`src/core/repository_scanner.py` lines 24-32):

```
if depth > max_depth: return
if is_git_repository(directory):
    repositories.append(directory); return
for child in directory.iterdir():
    if child.is_dir() and not child.name.startswith("."):
        _scan(child, depth + 1)
```

Returns the repository addresses found beneath (and including) the current
directory, relative to it, or `.error ()` when `iterdir()` raises
`PermissionError` on an unreadable directory (there is no exception handler
in the source). -/
def scanE (maxDepth : Nat) : Dir → Nat → Except Unit (List (List String))
  | .node _ hg rd _ cs, depth =>
    if maxDepth < depth then .ok []
    else if rd && hg then .ok [[]]
    else if rd then scanChildrenE maxDepth cs depth
    else .error ()

/-- The `for child in directory.iterdir()` loop: children are processed in
listing order, hidden names are skipped, and a `PermissionError` raised while
scanning one child aborts the whole traversal (the remaining children are
never reached). -/
def scanChildrenE (maxDepth : Nat) : List Dir → Nat → Except Unit (List (List String))
  | [], _ => .ok []
  | c :: cs, depth =>
    if hiddenName c.name then scanChildrenE maxDepth cs depth
    else
      match scanE maxDepth c (depth + 1) with
      | .error e => .error e
      | .ok r =>
        match scanChildrenE maxDepth cs depth with
        | .error e => .error e
        | .ok rest => .ok (r.map (fun a => c.name :: a) ++ rest)

end

mutual

/-- Addresses of the directories the traversal inspects — those on which
`_scan` runs past its depth guard (and so performs the repository check).
This over-approximates the actually-inspected set when a `PermissionError`
aborts the traversal early. -/
def visitP (maxDepth : Nat) : Dir → Nat → List (List String)
  | .node _ hg rd _ cs, depth =>
    if maxDepth < depth then []
    else [] :: (if rd && hg then [] else visitChildrenP maxDepth cs depth)

def visitChildrenP (maxDepth : Nat) : List Dir → Nat → List (List String)
  | [], _ => []
  | c :: cs, depth =>
    (if hiddenName c.name then []
     else (visitP maxDepth c (depth + 1)).map (fun a => c.name :: a)) ++
      visitChildrenP maxDepth cs depth

end

mutual

/-- Every directory in the tree is readable. -/
def allReadable : Dir → Bool
  | .node _ _ rd _ cs => rd && allReadableL cs

def allReadableL : List Dir → Bool
  | [] => true
  | c :: cs => allReadable c && allReadableL cs

end

mutual

/-- Well-formedness of the directory tree as a filesystem image: sibling
directory names are distinct, at every level. -/
def wfDir : Dir → Bool
  | .node _ _ _ _ cs => (cs.map Dir.name).Nodup && wfDirL cs

def wfDirL : List Dir → Bool
  | [] => true
  | c :: cs => wfDir c && wfDirL cs

end

/-- The specification-side reachability predicate: address `a` denotes a
repository that `locate` must report — its node is a Git working tree at
depth `a.length ≤ maxDepth`, reached from the base through ancestors that
are not themselves repositories, every step entering a child whose name does
not begin with a dot (the base's own name is not subject to the hidden
filter). -/
inductive Reach (maxDepth : Nat) : Dir → Nat → List String → Prop where
  | here {d : Dir} {depth : Nat} (hd : depth ≤ maxDepth)
      (hr : isRepo d = true) : Reach maxDepth d depth []
  | deeper {d c : Dir} {depth : Nat} {rest : List String}
      (hnr : isRepo d = false) (hc : c ∈ d.children)
      (hh : hiddenName c.name = false)
      (hrec : Reach maxDepth c (depth + 1) rest) :
      Reach maxDepth d depth (c.name :: rest)

/-- The spec's scenario-1 base directory: `base/a/.git`, `base/x/b/.git`, and
a repository-free chain `base/c/d/deep` whose repository sits beyond depth
2. -/
def exTree : Dir :=
  .node "base" false true false
    [.node "a" true true false [],
     .node "x" false true false [.node "b" true true false []],
     .node "c" false true false
       [.node "d" false true false [.node "deep" true true false []]]]

/-- A repository that itself contains a nested working tree one level
down. -/
def exNested : Dir :=
  .node "base" false true false
    [.node "repo" true true false [.node "inner" true true false []]]

/-- A dot-named base directory that is itself a repository. -/
def exHidden : Dir := .node ".cfgrepo" true true false []

/-- A base directory with one unreadable child: `iterdir()` on the child
raises `PermissionError` and the scan has no handler for it. -/
def baseUnreadable : Dir :=
  .node "base" false true false [.node "locked" false false false []]

/-- A base directory whose only child is a symlink to a repository
directory. -/
def baseLinkedRepo : Dir :=
  .node "base" false true false [.node "link" true true true []]

theorem mem_firstDedup {α : Type} [DecidableEq α] (l : List α) (x : α) :
    x ∈ firstDedup l ↔ x ∈ l := by
  induction l with
  | nil => simp [firstDedup]
  | cons a as ih =>
    by_cases hx : x = a
    · subst hx
      simp [firstDedup]
    · simp [firstDedup, List.mem_filter, hx, ih]

theorem nodup_firstDedup {α : Type} [DecidableEq α] (l : List α) :
    (firstDedup l).Nodup := by
  induction l with
  | nil => simp [firstDedup]
  | cons a as ih =>
    refine List.Nodup.cons ?_ (List.Nodup.filter _ ih)
    intro hmem
    have := (List.mem_filter.mp hmem).2
    simp at this

theorem firstDedup_eq_self {α : Type} [DecidableEq α] {l : List α}
    (h : l.Nodup) : firstDedup l = l := by
  induction l with
  | nil => rfl
  | cons a as ih =>
    have hna : a ∉ as := (List.nodup_cons.mp h).1
    have has : as.Nodup := (List.nodup_cons.mp h).2
    rw [firstDedup, ih has]
    congr 1
    apply List.filter_eq_self.mpr
    intro x hx
    simp only [decide_eq_true_eq]
    intro hxa
    exact hna (hxa ▸ hx)

theorem decide_not_mem_cons {α : Type} [DecidableEq α] (x a : α) (as : List α) :
    decide (x ∉ a :: as) = (decide (x ≠ a) && decide (x ∉ as)) := by
  by_cases h1 : x = a <;> by_cases h2 : x ∈ as <;> simp [h1, h2]

theorem decide_not_mem_append {α : Type} [DecidableEq α] (x : α) (l1 l2 : List α) :
    decide (x ∉ l1 ++ l2) = (decide (x ∉ l1) && decide (x ∉ l2)) := by
  by_cases h1 : x ∈ l1 <;> by_cases h2 : x ∈ l2 <;> simp [h1, h2]

theorem firstDedup_append {α : Type} [DecidableEq α] (A B : List α) :
    firstDedup (A ++ B) =
      firstDedup A ++ (firstDedup B).filter (fun x => decide (x ∉ A)) := by
  induction A with
  | nil =>
    simp only [List.nil_append, firstDedup]
    rw [List.filter_eq_self.mpr]
    intro x _
    simp
  | cons a as ih =>
    rw [List.cons_append, firstDedup, ih, firstDedup, List.filter_append,
      List.filter_filter, List.cons_append]
    congr 1
    congr 1
    apply List.filter_congr
    intro x _
    rw [decide_not_mem_cons]

theorem mergeLoop_eq {α : Type} [DecidableEq α] (canon : α → α) (l acc : List α) :
    mergeLoop canon l acc =
      acc ++ (firstDedup (l.map canon)).filter (fun x => decide (x ∉ acc)) := by
  induction l generalizing acc with
  | nil => simp [mergeLoop, firstDedup]
  | cons r rs ih =>
    rw [List.map_cons, firstDedup, mergeLoop, List.filter_cons]
    by_cases hm : canon r ∈ acc
    · rw [if_pos hm, if_neg (by simp [hm]), ih, List.filter_filter]
      congr 1
      apply List.filter_congr
      intro x _
      by_cases hx : x ∈ acc
      · simp [hx]
      · have hxc : x ≠ canon r := fun hxc => hx (hxc ▸ hm)
        simp [hx, hxc]
    · rw [if_neg hm, if_pos (by simp [hm]), ih, List.filter_filter,
        List.append_assoc, List.singleton_append]
      congr 1
      congr 1
      apply List.filter_congr
      intro x _
      by_cases hx : x ∈ acc <;> by_cases hxc : x = canon r <;> simp [hx, hxc]

theorem mergeLoop_nil_acc {α : Type} [DecidableEq α] (canon : α → α) (l : List α) :
    mergeLoop canon l [] = firstDedup (l.map canon) := by
  rw [mergeLoop_eq]
  simp only [List.nil_append]
  apply List.filter_eq_self.mpr
  intro x _
  simp

theorem map_canon_firstDedup {α : Type} [DecidableEq α] (canon : α → α)
    (hc : ∀ x, canon (canon x) = canon x) (l : List α) :
    (firstDedup (l.map canon)).map canon = firstDedup (l.map canon) := by
  have h : ∀ x ∈ firstDedup (l.map canon), canon x = x := by
    intro x hx
    obtain ⟨y, _, rfl⟩ := List.mem_map.mp ((mem_firstDedup _ _).mp hx)
    exact hc y
  rw [List.map_congr_left h]
  simp

theorem addRepo_nodup {α : Type} [DecidableEq α] (repos : List α) (p : α)
    (h : repos.Nodup) : (addRepo repos p).Nodup := by
  rw [addRepo]
  by_cases hp : p ∈ repos
  · rw [if_pos hp]
    exact h
  · rw [if_neg hp]
    simp [List.nodup_append, h, hp]

/-- C1: with a base directory configured, `_collect_repositories` returns the
concatenation of the persisted list and the located (scanned) list with every
entry canonicalized and filtered to the first occurrence of each canonical
path: the canonical images of persisted entries come first, in their original
relative order and deduplicated first-occurrence-wise (so a path present in
both sequences sits at its persisted-list position), and the canonical images
of located entries that do not occur among the persisted ones follow, in the
located order. -/
theorem collect_merge_spec {α : Type} [DecidableEq α] (canon : α → α)
    (scanned : List α) (cfg : AppConfig α) (hb : cfg.baseDirectory ≠ "") :
    collectRepositories canon scanned cfg =
      firstDedup (cfg.repositories.map canon) ++
        (firstDedup (scanned.map canon)).filter
          (fun x => decide (x ∉ cfg.repositories.map canon)) := by
  rw [collectRepositories, if_pos hb, mergeLoop_nil_acc, List.map_append,
    firstDedup_append]

/-- Witness for C1 at the spec's own example: persisted `[r1, r2]` and scan
result `[r2, r3]` merge to `[r1, r2, r3]` (here 0, 1, 2 with identity
canonicalization). -/
theorem collect_merge_spec_witness :
    ((({ baseDirectory := "/base", repositories := [0, 1] } :
        AppConfig Nat)).baseDirectory ≠ "") ∧
    collectRepositories (fun n : Nat => n) [1, 2]
        { baseDirectory := "/base", repositories := [0, 1] } =
      firstDedup (([0, 1] : List Nat).map (fun n => n)) ++
        (firstDedup (([1, 2] : List Nat).map (fun n => n))).filter
          (fun x => decide (x ∉ ([0, 1] : List Nat).map (fun n => n))) :=
  ⟨by decide, collect_merge_spec (fun n => n) [1, 2] _ (by decide)⟩

/-- C8: the merge is idempotent whenever canonicalization is
(`Path.resolve` is idempotent on a fixed filesystem): merging the result of
`merge(A, B)` with `B` again yields `merge(A, B)`. -/
theorem merge_idempotent {α : Type} [DecidableEq α] (canon : α → α)
    (hc : ∀ x, canon (canon x) = canon x) (A B : List α) :
    mergeLoop canon (mergeLoop canon (A ++ B) [] ++ B) [] =
      mergeLoop canon (A ++ B) [] := by
  rw [mergeLoop_nil_acc, mergeLoop_nil_acc, List.map_append,
    map_canon_firstDedup canon hc, firstDedup_append,
    firstDedup_eq_self (nodup_firstDedup _)]
  rw [List.filter_eq_nil_iff.mpr, List.append_nil]
  intro a ha
  have hmem : a ∈ List.map canon A ++ List.map canon B :=
    List.mem_append.mpr (Or.inr ((mem_firstDedup _ _).mp ha))
  simp [(mem_firstDedup _ _).mpr hmem]

/-- Witness for C8 with identity canonicalization, `A = [0, 1]`,
`B = [1, 2]`. -/
theorem merge_idempotent_witness :
    (∀ n : Nat, (fun m : Nat => m) ((fun m : Nat => m) n) = (fun m : Nat => m) n) ∧
    mergeLoop (fun n : Nat => n)
        (mergeLoop (fun n : Nat => n) ([0, 1] ++ [1, 2]) [] ++ [1, 2]) [] =
      mergeLoop (fun n : Nat => n) ([0, 1] ++ [1, 2]) [] :=
  ⟨fun _ => rfl, merge_idempotent (fun n => n) (fun _ => rfl) [0, 1] [1, 2]⟩

/-- Counterexample to C5 as stated, on two of the claim's production paths.
Startup with no base directory configured (`base_directory` left at its empty
default): `_collect_repositories` returns the persisted list verbatim —
unresolved and undeduplicated — so a repeated persisted entry yields a
RepositorySet with two entries whose canonical paths are equal.  Manual add:
`_on_add_repo` tests membership by raw path equality (`path not in
self.repos`), so adding the raw-distinct alias 2 of the already-present
canonical path 1 appends it, again producing two entries whose canonical
paths are equal. -/
theorem repository_set_dup_cex :
    (collectRepositories (fun n : Nat => n) []
        { baseDirectory := "", repositories := [0, 0] } = [0, 0] ∧
      ¬ ((collectRepositories (fun n : Nat => n) []
          { baseDirectory := "", repositories := [0, 0] }).map
            (fun n : Nat => n)).Nodup) ∧
    (addRepo [1] 2 = [1, 2] ∧ canonAlias 2 = canonAlias 1 ∧
      ¬ ((addRepo [1] 2).map canonAlias).Nodup) := by
  refine ⟨⟨by decide, by decide⟩, by decide, by decide, by decide⟩

/-- C5 amended: when a base directory is configured, the reconciled
RepositorySet contains no two entries with equal canonical paths; the manual
add operation deduplicates by raw path equality only, so it preserves raw
nodup-ness of the list but not canonical uniqueness.  (Without a base
directory the persisted list is returned as-is and may contain canonical
duplicates; both residual failure modes are exhibited by the
counterexample.) -/
theorem repository_set_nodup {α : Type} [DecidableEq α] (canon : α → α)
    (hc : ∀ x, canon (canon x) = canon x) (scanned : List α) (cfg : AppConfig α)
    (hb : cfg.baseDirectory ≠ "") :
    ((collectRepositories canon scanned cfg).map canon).Nodup ∧
      ∀ (repos : List α) (p : α), repos.Nodup → (addRepo repos p).Nodup := by
  constructor
  · rw [collectRepositories, if_pos hb, mergeLoop_nil_acc,
      map_canon_firstDedup canon hc]
    exact nodup_firstDedup _
  · intro repos p h
    exact addRepo_nodup repos p h

/-- Witness for the amended C5. -/
theorem repository_set_nodup_witness :
    ((({ baseDirectory := "/base", repositories := [0, 0, 1] } :
        AppConfig Nat)).baseDirectory ≠ "") ∧
    (((collectRepositories (fun n : Nat => n) [1, 2]
        { baseDirectory := "/base", repositories := [0, 0, 1] }).map
          (fun n : Nat => n)).Nodup ∧
      ∀ (repos : List Nat) (p : Nat), repos.Nodup →
        (addRepo repos p).Nodup) :=
  ⟨by decide,
    repository_set_nodup (fun n => n) (fun _ => rfl) [1, 2] _ (by decide)⟩

/-- Counterexample to C7 as stated: the merge loop applies `repo.resolve()`
with no exception handler, so a persisted list containing one unresolvable
entry makes the whole merge raise; the entry is not dropped and the remaining
entries are not merged (the claimed behavior would have produced
`.ok [7, 21]`). -/
theorem merge_malformed_cex :
    mergeLoopE canonDrop [7, 13, 21] [] = .error () := rfl

/-- C7 amended: the merge resolves each entry in turn; when every entry
resolves, the merge completes without raising and equals the total
canonicalizing merge (no entry is dropped), but if any entry fails to
resolve, the resolution error propagates and aborts the whole merge. -/
theorem merge_malformed_behavior {α : Type} [DecidableEq α]
    (canon : α → Option α) (canonT : α → α) (l acc : List α) :
    ((∀ x ∈ l, canon x = some (canonT x)) →
      mergeLoopE canon l acc = .ok (mergeLoop canonT l acc)) ∧
    ((∃ x ∈ l, canon x = none) → mergeLoopE canon l acc = .error ()) := by
  induction l generalizing acc with
  | nil =>
    refine ⟨fun _ => rfl, fun h => ?_⟩
    obtain ⟨x, hx, _⟩ := h
    exact absurd hx (List.not_mem_nil x)
  | cons r rs ih =>
    constructor
    · intro h
      have hr := h r (List.mem_cons_self r rs)
      have hrs : ∀ x ∈ rs, canon x = some (canonT x) :=
        fun x hx => h x (List.mem_cons_of_mem r hx)
      simp only [mergeLoopE, mergeLoop, hr]
      by_cases hm : canonT r ∈ acc
      · rw [if_pos hm, if_pos hm]
        exact (ih acc).1 hrs
      · rw [if_neg hm, if_neg hm]
        exact (ih (acc ++ [canonT r])).1 hrs
    · intro h
      obtain ⟨x, hx, hnone⟩ := h
      rcases List.mem_cons.mp hx with hxr | hxrs
      · subst hxr
        simp only [mergeLoopE, hnone]
      · cases hcr : canon r with
        | none => simp only [mergeLoopE, hcr]
        | some r' =>
          simp only [mergeLoopE, hcr]
          have hex : ∃ y ∈ rs, canon y = none := ⟨x, hxrs, hnone⟩
          by_cases hm : r' ∈ acc
          · rw [if_pos hm]
            exact (ih acc).2 hex
          · rw [if_neg hm]
            exact (ih (acc ++ [r'])).2 hex

/-- Witness for the amended C7: both branches exercised — an all-resolvable
list merges successfully, and a list containing the unresolvable entry 13
makes the merge raise. -/
theorem merge_malformed_behavior_witness :
    ((∀ x ∈ ([7, 21] : List Nat), canonDrop x = some ((fun n => n) x)) ∧
      mergeLoopE canonDrop [7, 21] [] = .ok (mergeLoop (fun n => n) [7, 21] [])) ∧
    ((∃ x ∈ ([7, 13, 21] : List Nat), canonDrop x = none) ∧
      mergeLoopE canonDrop [7, 13, 21] [] = .error ()) :=
  ⟨⟨by decide, (merge_malformed_behavior canonDrop (fun n => n) [7, 21] []).1
      (by decide)⟩,
    ⟨⟨13, by decide, rfl⟩,
      (merge_malformed_behavior canonDrop (fun n => n) [7, 13, 21] []).2
        ⟨13, by decide, rfl⟩⟩⟩

/-- C9: on a path that is not a valid Git working tree, `load` and every
query method raise the same `ValueError` (`NotARepository`); no result pair —
and hence no updated handle state and no snapshot component — is ever
produced, so the `repo` field remains unset. -/
theorem status_on_invalid (cap : GitCapability) (p : String)
    (h : cap.valid = false) :
    GitManager.load cap (newManager p) = .error .valueError ∧
    GitManager.is_dirty cap (newManager p) = .error .valueError ∧
    GitManager.list_branches cap (newManager p) = .error .valueError ∧
    GitManager.current_branch cap (newManager p) = .error .valueError ∧
    GitManager.list_status cap (newManager p) = .error .valueError := by
  have hl : GitManager.load cap (newManager p) = .error .valueError := by
    rw [GitManager.load, if_neg (by simp [h])]
  have he : GitManager.ensure cap (newManager p) = .error .valueError := hl
  refine ⟨hl, ?_, ?_, ?_, ?_⟩ <;>
    simp only [GitManager.is_dirty, GitManager.list_branches,
      GitManager.current_branch, GitManager.list_status, he] <;>
    rfl

/-- Witness for C9. -/
theorem status_on_invalid_witness :
    capInvalid.valid = false ∧
    (GitManager.load capInvalid (newManager "x") = .error .valueError ∧
     GitManager.is_dirty capInvalid (newManager "x") = .error .valueError ∧
     GitManager.list_branches capInvalid (newManager "x") = .error .valueError ∧
     GitManager.current_branch capInvalid (newManager "x") = .error .valueError ∧
     GitManager.list_status capInvalid (newManager "x") = .error .valueError) :=
  ⟨rfl, status_on_invalid capInvalid "x" rfl⟩

/-- Counterexample to C4 as stated: on a repository that opens successfully
but is in a detached-HEAD state, `current_branch` does not degrade
gracefully — it propagates the capability's `TypeError`, a hard failure that
is not `NotARepository`. -/
theorem aggregator_detached_cex :
    GitManager.load capDetached (newManager "x") =
      .ok { repoPath := "x", repo := some () } ∧
    GitManager.current_branch capDetached (newManager "x") =
      .error .typeError ∧
    GErr.typeError ≠ GErr.valueError := by
  refine ⟨rfl, ?_, by decide⟩
  rfl

/-- C4 amended: `NotARepository` (`ValueError`) is the only failure `load`
surfaces; on a handle that opens successfully, the dirty flag, branch
enumeration and changed-paths queries never raise (the changed-paths query
degrades an underlying command failure to an empty list), but the
current-branch lookup propagates a capability-level failure (`TypeError` on a
branch-less/detached HEAD) to the caller instead of degrading. -/
theorem aggregator_failures (cap : GitCapability) (p : String)
    (h : cap.valid = true) :
    GitManager.load cap (newManager p) =
      .ok { repoPath := p, repo := some () } ∧
    GitManager.is_dirty cap (newManager p) =
      .ok ({ repoPath := p, repo := some () }, cap.dirty) ∧
    GitManager.list_branches cap (newManager p) =
      .ok ({ repoPath := p, repo := some () }, cap.branches) ∧
    (∃ ls, GitManager.list_status cap (newManager p) =
      .ok ({ repoPath := p, repo := some () }, ls)) ∧
    (cap.statusLines = .error () →
      GitManager.list_status cap (newManager p) =
        .ok ({ repoPath := p, repo := some () }, [])) ∧
    (∀ b, cap.activeBranch = some b →
      GitManager.current_branch cap (newManager p) =
        .ok ({ repoPath := p, repo := some () }, b)) ∧
    (cap.activeBranch = none →
      GitManager.current_branch cap (newManager p) = .error .typeError) := by
  have hl : GitManager.load cap (newManager p) =
      .ok { repoPath := p, repo := some () } := by
    rw [GitManager.load, if_pos (by simp [h])]
    rfl
  have he : GitManager.ensure cap (newManager p) =
      .ok { repoPath := p, repo := some () } := hl
  refine ⟨hl, ?_, ?_, ?_, ?_, ?_, ?_⟩
  · simp [GitManager.is_dirty, he]
  · simp [GitManager.list_branches, he]
  · cases hs : cap.statusLines with
    | ok ls => exact ⟨ls, by simp [GitManager.list_status, he, hs]⟩
    | error e => exact ⟨[], by simp [GitManager.list_status, he, hs]⟩
  · intro hs
    simp [GitManager.list_status, he, hs]
  · intro b hb
    simp [GitManager.current_branch, he, hb]
  · intro hb
    simp only [GitManager.current_branch, he, hb]
    rfl

/-- Witness for the amended C4, at the detached-HEAD capability. -/
theorem aggregator_failures_witness :
    capDetached.valid = true ∧
    (GitManager.load capDetached (newManager "x") =
      .ok { repoPath := "x", repo := some () } ∧
    GitManager.is_dirty capDetached (newManager "x") =
      .ok ({ repoPath := "x", repo := some () }, capDetached.dirty) ∧
    GitManager.list_branches capDetached (newManager "x") =
      .ok ({ repoPath := "x", repo := some () }, capDetached.branches) ∧
    (∃ ls, GitManager.list_status capDetached (newManager "x") =
      .ok ({ repoPath := "x", repo := some () }, ls)) ∧
    (capDetached.statusLines = .error () →
      GitManager.list_status capDetached (newManager "x") =
        .ok ({ repoPath := "x", repo := some () }, [])) ∧
    (∀ b, capDetached.activeBranch = some b →
      GitManager.current_branch capDetached (newManager "x") =
        .ok ({ repoPath := "x", repo := some () }, b)) ∧
    (capDetached.activeBranch = none →
      GitManager.current_branch capDetached (newManager "x") =
        .error .typeError)) :=
  ⟨rfl, aggregator_failures capDetached "x" rfl⟩

theorem Reach_depth_le {maxD : Nat} {t : Dir} {depth : Nat} {a : List String}
    (h : Reach maxD t depth a) : depth ≤ maxD := by
  induction h with
  | here hd _ => exact hd
  | deeper _ _ _ _ ih => omega

theorem scanChildrenE_ok_child (maxD depth : Nat) (c : Dir)
    (hh : hiddenName c.name = false) :
    ∀ (cs : List Dir) (l : List (List String)),
      scanChildrenE maxD cs depth = .ok l → c ∈ cs →
      ∃ lc, scanE maxD c (depth + 1) = .ok lc := by
  intro cs
  induction cs with
  | nil =>
    intro l _ hc
    exact absurd hc (List.not_mem_nil c)
  | cons c0 cs ih =>
    intro l h hc
    simp only [scanChildrenE] at h
    rcases List.mem_cons.mp hc with rfl | hmem
    · rw [if_neg (by simp [hh])] at h
      cases hsc : scanE maxD c (depth + 1) with
      | error e => rw [hsc] at h; cases h
      | ok r => exact ⟨r, rfl⟩
    · by_cases hh0 : hiddenName c0.name = true
      · rw [if_pos hh0] at h
        exact ih l h hmem
      · rw [if_neg hh0] at h
        cases hsc : scanE maxD c0 (depth + 1) with
        | error e => rw [hsc] at h; cases h
        | ok r =>
          rw [hsc] at h
          cases hrest : scanChildrenE maxD cs depth with
          | error e => rw [hrest] at h; cases h
          | ok rest => exact ih rest hrest hmem

theorem scanChildrenE_ok_mem (maxD depth : Nat) (x : List String) :
    ∀ (cs : List Dir) (l : List (List String)),
      scanChildrenE maxD cs depth = .ok l →
      (x ∈ l ↔ ∃ c, c ∈ cs ∧ hiddenName c.name = false ∧
        ∃ lc, scanE maxD c (depth + 1) = .ok lc ∧
          ∃ r, x = c.name :: r ∧ r ∈ lc) := by
  intro cs
  induction cs with
  | nil =>
    intro l h
    simp only [scanChildrenE] at h
    cases h
    simp
  | cons c0 cs ih =>
    intro l h
    simp only [scanChildrenE] at h
    by_cases hh0 : hiddenName c0.name = true
    · rw [if_pos hh0] at h
      rw [ih l h]
      constructor
      · rintro ⟨c, hc, rest⟩
        exact ⟨c, List.mem_cons_of_mem _ hc, rest⟩
      · rintro ⟨c, hc, hch, rest⟩
        rcases List.mem_cons.mp hc with rfl | hmem
        · rw [hh0] at hch
          cases hch
        · exact ⟨c, hmem, hch, rest⟩
    · rw [if_neg hh0] at h
      rw [Bool.not_eq_true] at hh0
      cases hsc : scanE maxD c0 (depth + 1) with
      | error e => rw [hsc] at h; cases h
      | ok r =>
        rw [hsc] at h
        cases hrest : scanChildrenE maxD cs depth with
        | error e => rw [hrest] at h; cases h
        | ok rest =>
          rw [hrest] at h
          cases h
          constructor
          · intro hx
            rcases List.mem_append.mp hx with hxm | hxr
            · obtain ⟨rr, hrr, rfl⟩ := List.mem_map.mp hxm
              exact ⟨c0, List.mem_cons_self c0 cs, hh0, r, hsc, rr, rfl, hrr⟩
            · obtain ⟨c, hc, hrestc⟩ := (ih rest hrest).mp hxr
              exact ⟨c, List.mem_cons_of_mem _ hc, hrestc⟩
          · rintro ⟨c, hc, hch, lc, hlc, rr, rfl, hrr⟩
            rcases List.mem_cons.mp hc with rfl | hmem
            · rw [hsc] at hlc
              cases hlc
              exact List.mem_append.mpr
                (Or.inl (List.mem_map.mpr ⟨rr, hrr, rfl⟩))
            · exact List.mem_append.mpr
                (Or.inr ((ih rest hrest).mpr ⟨c, hmem, hch, lc, hlc, rr, rfl, hrr⟩))

theorem scanE_mem_reach (maxD : Nat) (a : List String) :
    ∀ (t : Dir) (depth : Nat) (l : List (List String)),
      scanE maxD t depth = .ok l → (a ∈ l ↔ Reach maxD t depth a) := by
  induction a with
  | nil =>
    intro t depth l h
    cases t with
    | node nm hg rd lk cs =>
      simp only [scanE] at h
      by_cases hd : maxD < depth
      · rw [if_pos hd] at h
        cases h
        constructor
        · intro hx
          exact absurd hx (List.not_mem_nil _)
        · intro hR
          exact absurd (Reach_depth_le hR) (by omega)
      · rw [if_neg hd] at h
        by_cases hrepo : (rd && hg) = true
        · rw [if_pos hrepo] at h
          cases h
          constructor
          · intro _
            exact Reach.here (by omega)
              (by simp [isRepo, Dir.readable, Dir.hasGit, hrepo])
          · intro _
            simp
        · rw [if_neg hrepo] at h
          by_cases hrd : rd = true
          · rw [if_pos hrd] at h
            constructor
            · intro hx
              obtain ⟨c, _, _, _, _, r, heq, _⟩ :=
                (scanChildrenE_ok_mem maxD depth [] cs l h).mp hx
              cases heq
            · intro hR
              cases hR with
              | here _ hr =>
                rw [isRepo] at hr
                simp [Dir.readable, Dir.hasGit] at hr
                exact absurd (by simp [hr.1, hr.2]) hrepo
          · rw [if_neg hrd] at h
            cases h
  | cons n rest ih =>
    intro t depth l h
    cases t with
    | node nm hg rd lk cs =>
      simp only [scanE] at h
      by_cases hd : maxD < depth
      · rw [if_pos hd] at h
        cases h
        constructor
        · intro hx
          exact absurd hx (List.not_mem_nil _)
        · intro hR
          exact absurd (Reach_depth_le hR) (by omega)
      · rw [if_neg hd] at h
        by_cases hrepo : (rd && hg) = true
        · rw [if_pos hrepo] at h
          cases h
          constructor
          · intro hx
            simp at hx
          · intro hR
            cases hR with
            | deeper hnr _ _ _ =>
              rw [isRepo] at hnr
              simp [Dir.readable, Dir.hasGit, hrepo] at hnr
        · rw [if_neg hrepo] at h
          by_cases hrd : rd = true
          · rw [if_pos hrd] at h
            rw [scanChildrenE_ok_mem maxD depth (n :: rest) cs l h]
            constructor
            · rintro ⟨c, hc, hch, lc, hlc, r, heq, hr⟩
              rw [List.cons.injEq] at heq
              obtain ⟨rfl, rfl⟩ := heq
              exact Reach.deeper
                (by rw [isRepo]; simp [Dir.readable, Dir.hasGit]
                    intro h1; by_contra h2
                    simp only [Bool.not_eq_false] at h2
                    exact hrepo (by simp [h1, h2]))
                (by simpa [Dir.children] using hc) hch
                ((ih c (depth + 1) lc hlc).mp hr)
            · intro hR
              cases hR with
              | deeper hnr hc hh hrec =>
                obtain ⟨lc, hlc⟩ := scanChildrenE_ok_child maxD depth _ hh cs l h
                  (by simpa [Dir.children] using hc)
                exact ⟨_, by simpa [Dir.children] using hc, hh, lc, hlc, rest,
                  rfl, (ih _ (depth + 1) lc hlc).mpr hrec⟩
          · rw [if_neg hrd] at h
            cases h

theorem visitChildrenP_mem (maxD depth : Nat) (x : List String) :
    ∀ (cs : List Dir), x ∈ visitChildrenP maxD cs depth →
      ∃ c ∈ cs, ∃ r, x = c.name :: r ∧ r ∈ visitP maxD c (depth + 1) := by
  intro cs
  induction cs with
  | nil =>
    intro h
    simp [visitChildrenP] at h
  | cons c0 cs ih =>
    intro h
    simp only [visitChildrenP] at h
    rcases List.mem_append.mp h with h1 | h2
    · by_cases hh : hiddenName c0.name = true
      · rw [if_pos hh] at h1
        exact absurd h1 (List.not_mem_nil x)
      · rw [if_neg hh] at h1
        obtain ⟨r, hr, rfl⟩ := List.mem_map.mp h1
        exact ⟨c0, List.mem_cons_self _ _, r, rfl, hr⟩
    · obtain ⟨c, hc, rest⟩ := ih h2
      exact ⟨c, List.mem_cons_of_mem _ hc, rest⟩

theorem visitP_depth_le (maxD : Nat) (a : List String) :
    ∀ (t : Dir) (depth : Nat), a ∈ visitP maxD t depth →
      depth + a.length ≤ maxD := by
  induction a with
  | nil =>
    intro t depth h
    cases t with
    | node nm hg rd lk cs =>
      simp only [visitP] at h
      by_cases hd : maxD < depth
      · rw [if_pos hd] at h
        exact absurd h (List.not_mem_nil _)
      · simp only [List.length_nil]
        omega
  | cons n rest ih =>
    intro t depth h
    cases t with
    | node nm hg rd lk cs =>
      simp only [visitP] at h
      by_cases hd : maxD < depth
      · rw [if_pos hd] at h
        exact absurd h (List.not_mem_nil _)
      · rw [if_neg hd] at h
        rcases List.mem_cons.mp h with heq | hmem
        · cases heq
        · by_cases hrepo : (rd && hg) = true
          · rw [if_pos hrepo] at hmem
            exact absurd hmem (List.not_mem_nil _)
          · rw [if_neg hrepo] at hmem
            obtain ⟨c, hc, r, heq, hr⟩ := visitChildrenP_mem maxD depth _ cs hmem
            rw [List.cons.injEq] at heq
            obtain ⟨rfl, rfl⟩ := heq
            have := ih c (depth + 1) hr
            simp only [List.length_cons]
            omega

/-- C2: whenever the bounded scan of a base directory completes with a
result, that result contains exactly the repositories reachable through
non-hidden, non-repository ancestors at depth at most `maxDepth` (the base
at depth 0); in particular no repository deeper than `maxDepth` is returned,
and every directory the traversal inspects (runs its body on) lies at depth
at most `maxDepth` — directories beyond the bound are never visited. -/
theorem scan_depth_bound (maxD : Nat) (t : Dir) (l : List (List String))
    (h : scanE maxD t 0 = .ok l) :
    (∀ a, a ∈ l ↔ Reach maxD t 0 a) ∧
      ∀ a ∈ visitP maxD t 0, a.length ≤ maxD := by
  refine ⟨fun a => scanE_mem_reach maxD a t 0 l h, fun a ha => ?_⟩
  have := visitP_depth_le maxD a t 0 ha
  omega

/-- Witness for C2 on the scenario-1 tree with `maxDepth = 2`: the scan finds
`base/a` and `base/x/b` and nothing deeper. -/
theorem scan_depth_bound_witness :
    scanE 2 exTree 0 = .ok [["a"], ["x", "b"]] ∧
    ((∀ a, a ∈ [["a"], ["x", "b"]] ↔ Reach 2 exTree 0 a) ∧
      ∀ a ∈ visitP 2 exTree 0, a.length ≤ 2) :=
  ⟨rfl, scan_depth_bound 2 exTree [["a"], ["x", "b"]] rfl⟩

theorem wfDirL_mem : ∀ (cs : List Dir), wfDirL cs = true →
    ∀ c ∈ cs, wfDir c = true := by
  intro cs
  induction cs with
  | nil =>
    intro _ c hc
    exact absurd hc (List.not_mem_nil c)
  | cons c0 cs ih =>
    intro h c hc
    simp only [wfDirL, Bool.and_eq_true] at h
    rcases List.mem_cons.mp hc with rfl | hmem
    · exact h.1
    · exact ih h.2 c hmem

theorem scanE_no_descendant (maxD : Nat) (a : List String) :
    ∀ (t : Dir) (depth : Nat) (l : List (List String)) (k : List String),
      wfDir t = true → scanE maxD t depth = .ok l → a ∈ l → k ≠ [] →
      a ++ k ∉ l := by
  induction a with
  | nil =>
    intro t depth l k hwf h ha hk hb
    cases t with
    | node nm hg rd lk cs =>
      simp only [scanE] at h
      by_cases hd : maxD < depth
      · rw [if_pos hd] at h
        cases h
        exact absurd ha (List.not_mem_nil _)
      · rw [if_neg hd] at h
        by_cases hrepo : (rd && hg) = true
        · rw [if_pos hrepo] at h
          cases h
          simp only [List.nil_append] at hb
          simp at hb
          exact hk hb
        · rw [if_neg hrepo] at h
          by_cases hrd : rd = true
          · rw [if_pos hrd] at h
            obtain ⟨c, _, _, _, _, r, heq, _⟩ :=
              (scanChildrenE_ok_mem maxD depth [] cs l h).mp ha
            cases heq
          · rw [if_neg hrd] at h
            cases h
  | cons n rest ih =>
    intro t depth l k hwf h ha hk hb
    cases t with
    | node nm hg rd lk cs =>
      simp only [scanE] at h
      by_cases hd : maxD < depth
      · rw [if_pos hd] at h
        cases h
        exact absurd ha (List.not_mem_nil _)
      · rw [if_neg hd] at h
        by_cases hrepo : (rd && hg) = true
        · rw [if_pos hrepo] at h
          cases h
          simp at ha
        · rw [if_neg hrepo] at h
          by_cases hrd : rd = true
          · rw [if_pos hrd] at h
            obtain ⟨c1, hc1, hh1, lc1, hlc1, r1, heq1, hr1⟩ :=
              (scanChildrenE_ok_mem maxD depth (n :: rest) cs l h).mp ha
            rw [List.cons.injEq] at heq1
            obtain ⟨hn1, rfl⟩ := heq1
            rw [List.cons_append] at hb
            obtain ⟨c2, hc2, hh2, lc2, hlc2, r2, heq2, hr2⟩ :=
              (scanChildrenE_ok_mem maxD depth (n :: (rest ++ k)) cs l h).mp hb
            rw [List.cons.injEq] at heq2
            obtain ⟨hn2, rfl⟩ := heq2
            simp only [wfDir, Bool.and_eq_true, decide_eq_true_eq] at hwf
            have hceq : c1 = c2 :=
              List.inj_on_of_nodup_map hwf.1 hc1 hc2 (by rw [← hn1, ← hn2])
            subst hceq
            rw [hlc1] at hlc2
            cases hlc2
            exact ih c1 (depth + 1) lc1 k (wfDirL_mem cs hwf.2 c1 hc1)
              hlc1 hr1 hk hr2
          · rw [if_neg hrd] at h
            cases h

/-- C3: on a well-formed directory tree (distinct sibling names, as on a real
filesystem), a directory recorded by the scan never has a strict descendant
in the result: the scan stops at the first `.git`-bearing directory and never
recurses into it, so none of its submodules, nested trees or `.git` contents
can be reported. -/
theorem scan_no_nested (maxD : Nat) (t : Dir) (l : List (List String))
    (hwf : wfDir t = true) (h : scanE maxD t 0 = .ok l)
    (a k : List String) (ha : a ∈ l) (hk : k ≠ []) : a ++ k ∉ l :=
  scanE_no_descendant maxD a t 0 l k hwf h ha hk

/-- Witness for C3: `base/repo` is recorded and its nested working tree
`base/repo/inner` is not. -/
theorem scan_no_nested_witness :
    wfDir exNested = true ∧
    scanE 2 exNested 0 = .ok [["repo"]] ∧
    (["repo"] : List String) ∈ [(["repo"] : List String)] ∧
    (["inner"] : List String) ≠ [] ∧
    ["repo"] ++ ["inner"] ∉ [(["repo"] : List String)] :=
  ⟨by decide, rfl, by simp, by simp,
    scan_no_nested 2 exNested [(["repo"] : List String)] (by decide) rfl
      ["repo"] ["inner"] (by simp) (by simp)⟩

/-- C10: the hidden-name filter is applied only to child directories while
iterating, never to the base directory itself: a base whose own name starts
with a dot is still scanned, and recorded when it is itself a Git working
tree. -/
theorem hidden_base_scanned (maxD : Nat) (t : Dir)
    (hn : hiddenName t.name = true) (hr : isRepo t = true) :
    scanE maxD t 0 = .ok [[]] := by
  cases t with
  | node nm hg rd lk cs =>
    rw [isRepo] at hr
    simp only [Dir.readable, Dir.hasGit] at hr
    simp only [scanE]
    rw [if_neg (by omega), if_pos hr]

/-- Witness for C10. -/
theorem hidden_base_scanned_witness :
    hiddenName exHidden.name = true ∧ isRepo exHidden = true ∧
    scanE 5 exHidden 0 = .ok [[]] :=
  ⟨rfl, rfl, hidden_base_scanned 5 exHidden rfl rfl⟩

theorem allReadableL_mem : ∀ (cs : List Dir), allReadableL cs = true →
    ∀ c ∈ cs, allReadable c = true := by
  intro cs
  induction cs with
  | nil =>
    intro _ c hc
    exact absurd hc (List.not_mem_nil c)
  | cons c0 cs ih =>
    intro h c hc
    simp only [allReadableL, Bool.and_eq_true] at h
    rcases List.mem_cons.mp hc with rfl | hmem
    · exact h.1
    · exact ih h.2 c hmem

mutual

theorem scanE_total (maxD : Nat) (t : Dir) (depth : Nat)
    (h : allReadable t = true) : ∃ l, scanE maxD t depth = .ok l := by
  cases t with
  | node nm hg rd lk cs =>
    simp only [allReadable, Bool.and_eq_true] at h
    simp only [scanE]
    by_cases hd : maxD < depth
    · exact ⟨[], by rw [if_pos hd]⟩
    · rw [if_neg hd]
      by_cases hrepo : (rd && hg) = true
      · exact ⟨[[]], by rw [if_pos hrepo]⟩
      · rw [if_neg hrepo, if_pos h.1]
        exact scanChildrenE_total maxD cs depth h.2

theorem scanChildrenE_total (maxD : Nat) (cs : List Dir) (depth : Nat)
    (h : allReadableL cs = true) :
    ∃ l, scanChildrenE maxD cs depth = .ok l := by
  cases cs with
  | nil => exact ⟨[], rfl⟩
  | cons c0 cs' =>
    simp only [allReadableL, Bool.and_eq_true] at h
    simp only [scanChildrenE]
    by_cases hh : hiddenName c0.name = true
    · rw [if_pos hh]
      exact scanChildrenE_total maxD cs' depth h.2
    · rw [if_neg hh]
      obtain ⟨r, hr⟩ := scanE_total maxD c0 (depth + 1) h.1
      obtain ⟨rest, hrest⟩ := scanChildrenE_total maxD cs' depth h.2
      rw [hr, hrest]
      exact ⟨_, rfl⟩

end

/-- Counterexample to C6 as stated: the scan raises (propagates
`PermissionError`) on a permission-denied subdirectory instead of skipping it
silently, and it does not treat a symlinked subdirectory as a non-match — the
symlinked repository is followed and reported. -/
theorem scan_unreadable_cex :
    scanE 2 baseUnreadable 0 = .error () ∧
    scanE 2 baseLinkedRepo 0 = .ok [["link"]] :=
  ⟨rfl, rfl⟩

/-- C6 amended: the scanner never consults symlink status — a symlinked
subdirectory is traversed exactly like an ordinary one, not skipped — and an
unreadable subdirectory makes the traversal raise; when every directory in
the base tree is readable, the traversal completes and returns a result. -/
theorem scan_permission_symlink (maxD : Nat) (t : Dir) (depth : Nat)
    (h : allReadable t = true) :
    (∃ l, scanE maxD t depth = .ok l) ∧
    ∀ b, scanE maxD (t.withLink b) depth = scanE maxD t depth := by
  refine ⟨scanE_total maxD t depth h, fun b => ?_⟩
  cases t with
  | node nm hg rd lk cs => rfl

/-- Witness for the amended C6 on the all-readable scenario-1 tree. -/
theorem scan_permission_symlink_witness :
    allReadable exTree = true ∧
    ((∃ l, scanE 2 exTree 0 = .ok l) ∧
      ∀ b, scanE 2 (exTree.withLink b) 0 = scanE 2 exTree 0) :=
  ⟨rfl, scan_permission_symlink 2 exTree 0 rfl⟩

end GitBoss
